import Mathlib

/-!
Verification of the kubectl-sdcio tree engine.

This file shallowly embeds the Go sources of the repository
(pkg/client/client.go, pkg/utils/pattern.go, pkg/utils/path.go,
pkg/cmd/search.go, pkg/cmd/search_types.go, pkg/cmd/gen.go,
pkg/cmd/search_dependencies.go) and proves or refutes the frozen claims
about them.  Strings are handled through their underlying character
lists so that every definition is executable by the kernel.
-/

namespace Sdcio

/-! ## Character-list string helpers

Go works on strings; we mirror the handful of `strings` package
functions the sources use as executable functions on `List Char`. -/

/-- Go strings.Contains: true when sub occurs inside s (empty sub always). -/
def containsSub (s sub : List Char) : Bool :=
  match s with
  | [] => sub.isEmpty
  | _ :: rest => (sub.isPrefixOf s) || containsSub rest sub

/-- Lower-casing of a character list, mirroring Go strings.ToLower on ASCII. -/
def lowerChars (s : List Char) : List Char := s.map Char.toLower

/-! ## Pattern Matcher (pkg/utils/pattern.go)

`WildCardToRegexp` is a pure string transformation and is translated
verbatim.  The call `regexp.MatchString` is external; we embed Go's
regular-expression engine for the fragment of syntax the generated
patterns can contain (anchors, literal characters, backslash escapes of
metacharacters, `.`, postfix `*` and `+`).  The embedded parser returns
`none` for constructs outside that fragment, which `matchesPattern`
treats like a compile error of the Go engine (Go errors on a strict
subset of these inputs, e.g. unbalanced parentheses; the divergence only
widens the fallback path and is irrelevant to the concrete inputs used
in the theorems below, at which both engines agree). -/

/-- A single-character regex atom: a literal character or `.`
(which in Go matches any character except newline). -/
inductive RegAtom where
  | chr (c : Char)
  | any
deriving DecidableEq, Repr

/-- Regexes generated by the wildcard translator: sequences of atoms,
possibly starred or plus-ed. -/
inductive Reg where
  | eps
  | atom (a : RegAtom)
  | cat (r s : Reg)
  | star (a : RegAtom)
  | plus (a : RegAtom)
deriving DecidableEq, Repr

/-- Character test of an atom; the Boolean is the case-insensitive flag
(Go `(?i)`), folded through ASCII lower-casing. -/
def RegAtom.test (ci : Bool) : RegAtom → Char → Bool
  | .chr c, d => if ci then c.toLower == d.toLower else c == d
  | .any, d => d != '\n'

/-- Match a run of zero or more atom occurrences followed by the
continuation. Order of alternatives does not affect the Boolean result. -/
def starRun (ci : Bool) (a : RegAtom) : List Char → (List Char → Bool) → Bool
  | cs, k =>
    k cs ||
      match cs with
      | [] => false
      | c :: rest => a.test ci c && starRun ci a rest k

/-- Continuation-passing regex matcher. -/
def regMatch (ci : Bool) : Reg → List Char → (List Char → Bool) → Bool
  | .eps, cs, k => k cs
  | .atom a, cs, k =>
    match cs with
    | [] => false
    | c :: rest => a.test ci c && k rest
  | .cat r s, cs, k => regMatch ci r cs (fun rest => regMatch ci s rest k)
  | .star a, cs, k => starRun ci a cs k
  | .plus a, cs, k =>
    match cs with
    | [] => false
    | c :: rest => a.test ci c && starRun ci a rest k

/-- The characters Go's regexp.QuoteMeta escapes. -/
def goSpecialChar (c : Char) : Bool :=
  c == '\\' || c == '.' || c == '+' || c == '*' || c == '?' || c == '(' ||
  c == ')' || c == '|' || c == '[' || c == ']' || c == '{' || c == '}' ||
  c == '^' || c == '$'

/-- Regex characters our embedded engine does not support as bare atoms
(character classes, groups, alternation, repetition operators in atom
position).  Go errors on some of these in the positions the generated
patterns can produce them (leading `*` or `+`, unbalanced brackets). -/
def unsupportedRegexChar (c : Char) : Bool :=
  c == '(' || c == ')' || c == '[' || c == ']' || c == '{' || c == '}' ||
  c == '|' || c == '?' || c == '*' || c == '+' || c == '^'

/-- Parse the body of an anchored regex (everything between `^` and the
final `$`), fuel-bounded for termination; fuel is always sufficient when
called with the input length plus one. -/
def parseRegBody : Nat → List Char → Option Reg
  | 0, _ => none
  | _ + 1, [] => none
  | _ + 1, ['$'] => some .eps
  | _ + 1, '$' :: _ :: _ => none
  | fuel + 1, '\\' :: rest =>
    match rest with
    | [] => none
    | d :: rest1 =>
      if goSpecialChar d then
        match rest1 with
        | '*' :: r => (parseRegBody fuel r).map (Reg.cat (Reg.star (.chr d)))
        | '+' :: r => (parseRegBody fuel r).map (Reg.cat (Reg.plus (.chr d)))
        | r => (parseRegBody fuel r).map (Reg.cat (Reg.atom (.chr d)))
      else none
  | fuel + 1, '.' :: rest =>
    match rest with
    | '*' :: r => (parseRegBody fuel r).map (Reg.cat (Reg.star .any))
    | '+' :: r => (parseRegBody fuel r).map (Reg.cat (Reg.plus .any))
    | r => (parseRegBody fuel r).map (Reg.cat (Reg.atom .any))
  | fuel + 1, c :: rest =>
    if unsupportedRegexChar c then none
    else
      match rest with
      | '*' :: r => (parseRegBody fuel r).map (Reg.cat (Reg.star (.chr c)))
      | '+' :: r => (parseRegBody fuel r).map (Reg.cat (Reg.plus (.chr c)))
      | r => (parseRegBody fuel r).map (Reg.cat (Reg.atom (.chr c)))

/-- Compile a regex string: optional `(?i)` flag, a leading `^`, a body,
a trailing `$`.  Returns the case-insensitivity flag and the AST, or
`none` when compilation fails. -/
def compileRegex (s : List Char) : Option (Bool × Reg) :=
  let (ci, body) :=
    match s with
    | '(' :: '?' :: 'i' :: ')' :: rest => (true, rest)
    | _ => (false, s)
  match body with
  | '^' :: inner => (parseRegBody (inner.length + 1) inner).map (fun r => (ci, r))
  | _ => none

/-- Go regexp.MatchString for the compiled pattern: `none` models a
compilation error.  The generated patterns are `^...$`-anchored, so a
successful match is a whole-text match. -/
def regexpMatchString (pat text : List Char) : Option Bool :=
  (compileRegex pat).map (fun p => regMatch p.1 p.2 text (·.isEmpty))

/-- strings.ReplaceAll(pattern, ".", "\\."). -/
def replaceDots (s : List Char) : List Char :=
  s.flatMap (fun c => if c == '.' then ['\\', '.'] else [c])

/-- strings.Split(s, "*"): pieces between `*` occurrences, empties kept. -/
def splitStar : List Char → List (List Char)
  | [] => [[]]
  | c :: cs =>
    match splitStar cs with
    | [] => [[]]
    | g :: gs => if c == '*' then [] :: g :: gs else (c :: g) :: gs

/-- regexp.QuoteMeta. -/
def quoteMeta (s : List Char) : List Char :=
  s.flatMap (fun c => if goSpecialChar c then ['\\', c] else [c])

/-- Join character lists with a separator list (strings.Builder loop in
WildCardToRegexp writes `.*` before every component after the first). -/
def joinWith (sep : List Char) : List (List Char) → List Char
  | [] => []
  | [g] => g
  | g :: gs => g ++ sep ++ joinWith sep gs

/-- pkg/utils/pattern.go WildCardToRegexp.  Note the source escapes dots
first, splits on `*`, and QuoteMetas each component — so a pre-escaped
dot is escaped a second time in the multi-component branch. -/
def wildCardToRegexp (pattern : List Char) : List Char :=
  let pattern := replaceDots pattern
  let components := splitStar pattern
  if components.length == 1 then
    '^' :: pattern ++ ['$']
  else
    '^' :: joinWith ['.', '*'] (components.map quoteMeta) ++ ['$']

/-- The regex string MatchesPattern hands to regexp.MatchString. -/
def compiledRegexOf (pattern : List Char) (caseSensitive : Bool) : List Char :=
  let r := wildCardToRegexp pattern
  if !caseSensitive then '(' :: '?' :: 'i' :: ')' :: r else r

/-- pkg/utils/pattern.go MatchesPattern. -/
def matchesPattern (text pattern : String) (caseSensitive : Bool) : Bool :=
  if pattern.data.isEmpty then true
  else
    match regexpMatchString (compiledRegexOf pattern.data caseSensitive) text.data with
    | some matched => matched
    | none =>
      if !caseSensitive then
        containsSub (lowerChars text.data) (lowerChars pattern.data)
      else
        containsSub text.data pattern.data

/-! ## Blame tree (pkg/client/client.go)

`sdcpb.BlameTreeElement` carries a name, owner, value, deviation value
and a list of children.  Values are never inspected by the filter, only
copied; the external sdc-protos method `IsDeviated` is modelled, per the
spec's data model ("deviationValue present only when intended and actual
differ"), as presence of the deviation value. -/

structure BlameTreeElement where
  name : String
  owner : String
  value : Option String
  deviationValue : Option String
  childs : List BlameTreeElement

/-- External sdc-protos BlameTreeElement.IsDeviated, modelled as presence
of a deviation value (see the note above). -/
def BlameTreeElement.isDeviated (b : BlameTreeElement) : Bool :=
  b.deviationValue.isSome

/-- pkg/client/client.go BlameFilter. -/
structure BlameFilter where
  leafName : String
  owner : String
  path : String
  deviation : Bool

/-- pkg/client/client.go matchesFilter: one node against the criteria;
every MatchesPattern call passes caseSensitive = false, as in the source. -/
def matchesFilter (node : BlameTreeElement) (path : List String)
    (filter : BlameFilter) : Bool :=
  let leafMatches :=
    if filter.leafName ≠ "" then matchesPattern node.name filter.leafName false
    else true
  let ownerMatches :=
    if filter.owner ≠ "" then matchesPattern node.owner filter.owner false
    else true
  let pathMatches :=
    if filter.path ≠ "" then
      matchesPattern (String.intercalate "/" (path ++ [node.name])) filter.path false
    else true
  let deviationMatches :=
    if filter.deviation then node.isDeviated else true
  leafMatches && ownerMatches && pathMatches && deviationMatches

mutual

/-- pkg/client/client.go filterBlameTree: recursive copy-and-prune.
The Go nil-node guard is unrepresentable here (nodes are values);
`none` is the nil result. -/
def filterBlameTree (node : BlameTreeElement) (currentPath : List String)
    (filter : BlameFilter) : Option BlameTreeElement :=
  match node with
  | ⟨n, o, v, d, []⟩ =>
    if matchesFilter ⟨n, o, v, d, []⟩ currentPath filter then
      some ⟨n, o, v, d, []⟩
    else none
  | ⟨n, o, v, d, c :: cs⟩ =>
    let filteredChilds := filterChilds (c :: cs) (currentPath ++ [n]) filter
    if filteredChilds.isEmpty then none
    else some ⟨n, o, v, d, filteredChilds⟩

/-- The loop over node.Childs inside filterBlameTree: keep the non-nil
filtered children in order. -/
def filterChilds (childs : List BlameTreeElement) (newPath : List String)
    (filter : BlameFilter) : List BlameTreeElement :=
  match childs with
  | [] => []
  | c :: cs =>
    match filterBlameTree c newPath filter with
    | some fc => fc :: filterChilds cs newPath filter
    | none => filterChilds cs newPath filter

end

/-- pkg/client/client.go GetFilteredBlameTree, with the remote fetch
abstracted into the `tree` argument: with no criteria at all the tree is
returned as-is, otherwise the filter runs from an empty path. -/
def getFilteredBlameTree (tree : BlameTreeElement) (filter : BlameFilter) :
    Option BlameTreeElement :=
  if filter.leafName = "" ∧ filter.owner = "" ∧ filter.path = "" ∧
      filter.deviation = false then
    some tree
  else filterBlameTree tree [] filter

/-- Member-wise induction principle for the nested tree type. -/
theorem BlameTreeElement.recMemBlame {P : BlameTreeElement → Prop}
    (h : ∀ n o v d cs, (∀ c ∈ cs, P c) → P ⟨n, o, v, d, cs⟩) :
    ∀ t, P t
  | ⟨n, o, v, d, cs⟩ =>
    h n o v d cs (fun c hc =>
      have : sizeOf c < sizeOf (BlameTreeElement.mk n o v d cs) := by
        have := List.sizeOf_lt_of_mem hc
        simp only [BlameTreeElement.mk.sizeOf_spec]
        omega
      BlameTreeElement.recMemBlame h c)
termination_by t => sizeOf t


/-! ## Shared lemmas about the blame-tree filter -/

/-- The child loop keeps exactly the children whose filtering is non-nil. -/
theorem filterChilds_eq_filterMap (l : List BlameTreeElement) (p : List String)
    (f : BlameFilter) :
    filterChilds l p f = l.filterMap (fun c => filterBlameTree c p f) := by
  induction l with
  | nil => rfl
  | cons c cs ih =>
    simp only [filterChilds, List.filterMap_cons]
    cases filterBlameTree c p f <;> simp [ih]

theorem mem_filterChilds {x : BlameTreeElement} {l : List BlameTreeElement}
    {p : List String} {f : BlameFilter} :
    x ∈ filterChilds l p f ↔ ∃ c ∈ l, filterBlameTree c p f = some x := by
  rw [filterChilds_eq_filterMap, List.mem_filterMap]

theorem filterChilds_self {l : List BlameTreeElement} {p : List String}
    {f : BlameFilter} (h : ∀ x ∈ l, filterBlameTree x p f = some x) :
    filterChilds l p f = l := by
  induction l with
  | nil => rfl
  | cons c cs ih =>
    simp only [filterChilds]
    rw [h c (List.mem_cons_self c cs)]
    rw [ih (fun x hx => h x (List.mem_cons_of_mem c hx))]

/-- Boolean guard helper: an optional criterion holds iff, when supplied,
its match succeeds. -/
theorem if_guard_eq_true (c : Prop) [Decidable c] (b : Bool) :
    ((if c then b else true) = true) ↔ (c → b = true) := by
  split <;> simp_all

/-- C1 leaf criterion spelled out as the spec states it. -/
theorem matchesFilter_iff (n o : String) (v d : Option String)
    (cs : List BlameTreeElement) (ps : List String) (f : BlameFilter) :
    matchesFilter ⟨n, o, v, d, cs⟩ ps f = true ↔
      ((f.leafName ≠ "" → matchesPattern n f.leafName false = true) ∧
       (f.owner ≠ "" → matchesPattern o f.owner false = true) ∧
       (f.path ≠ "" →
         matchesPattern (String.intercalate "/" (ps ++ [n])) f.path false = true) ∧
       (f.deviation = true → d.isSome = true)) := by
  simp only [matchesFilter, Bool.and_eq_true, if_guard_eq_true,
    BlameTreeElement.isDeviated]
  tauto


/-- C1: a childless node survives filtering iff it matches every supplied
criterion (leaf name, owner, slash-joined ancestor path plus own name,
and deviation presence when deviation-only is set); a node with children
survives, carrying exactly its surviving children, iff at least one child
survives; with no criteria at all the input tree is returned unchanged. -/
theorem claim_c1 (f : BlameFilter) (n o : String) (v d : Option String)
    (cs : List BlameTreeElement) (ps : List String) (t : BlameTreeElement) :
    (filterBlameTree ⟨n, o, v, d, []⟩ ps f =
      (if ((f.leafName ≠ "" → matchesPattern n f.leafName false = true) ∧
           (f.owner ≠ "" → matchesPattern o f.owner false = true) ∧
           (f.path ≠ "" →
             matchesPattern (String.intercalate "/" (ps ++ [n])) f.path false = true) ∧
           (f.deviation = true → d.isSome = true)) then
        some ⟨n, o, v, d, []⟩ else none)) ∧
    (cs ≠ [] →
      filterBlameTree ⟨n, o, v, d, cs⟩ ps f =
        (if (cs.filterMap (fun c => filterBlameTree c (ps ++ [n]) f)).isEmpty
         then none
         else some ⟨n, o, v, d,
           cs.filterMap (fun c => filterBlameTree c (ps ++ [n]) f)⟩)) ∧
    (f.leafName = "" → f.owner = "" → f.path = "" → f.deviation = false →
      getFilteredBlameTree t f = some t) := by
  refine ⟨?_, ?_, ?_⟩
  · simp only [filterBlameTree]
    exact if_congr (matchesFilter_iff n o v d [] ps f) rfl rfl
  · intro hcs
    cases cs with
    | nil => exact absurd rfl hcs
    | cons c cs1 =>
      simp only [filterBlameTree, filterChilds_eq_filterMap]
  · intro h1 h2 h3 h4
    simp [getFilteredBlameTree, h1, h2, h3, h4]

/-- C6: filtering is idempotent on its non-absent results. -/
theorem claim_c6 : ∀ (t : BlameTreeElement) (ps : List String)
    (f : BlameFilter) (t1 : BlameTreeElement),
    filterBlameTree t ps f = some t1 → filterBlameTree t1 ps f = some t1 := by
  intro t
  induction t using BlameTreeElement.recMemBlame with
  | h n o v d cs ih =>
    intro ps f t1 hf
    cases cs with
    | nil =>
      simp only [filterBlameTree] at hf
      split at hf
      · cases hf
        simp only [filterBlameTree]
        rename_i hm
        rw [if_pos hm]
      · cases hf
    | cons c cs1 =>
      simp only [filterBlameTree] at hf
      split at hf
      · cases hf
      · rename_i hne
        cases hf
        have hself : filterChilds (filterChilds (c :: cs1) (ps ++ [n]) f)
            (ps ++ [n]) f = filterChilds (c :: cs1) (ps ++ [n]) f := by
          refine filterChilds_self (fun x hx => ?_)
          obtain ⟨c0, hc0m, hc0⟩ := mem_filterChilds.mp hx
          exact ih c0 hc0m (ps ++ [n]) f x hc0
        obtain ⟨a, as, hfc⟩ : ∃ a as,
            filterChilds (c :: cs1) (ps ++ [n]) f = a :: as := by
          cases hfc : filterChilds (c :: cs1) (ps ++ [n]) f with
          | nil => rw [hfc] at hne; exact absurd rfl hne
          | cons a as => exact ⟨a, as, rfl⟩
        rw [hfc] at hself ⊢
        simp only [filterBlameTree, hself, List.isEmpty_cons]
        rfl


/-! ## Ancestor chains (specification device for C7)

`nodeChains t` lists, for every node occurrence in `t`, the chain of
names from the root down to and including that node. -/

mutual

def nodeChains : BlameTreeElement → List (List String)
  | ⟨n, _, _, _, cs⟩ => [n] :: (chainsOfChilds cs).map (fun ch => n :: ch)

def chainsOfChilds : List BlameTreeElement → List (List String)
  | [] => []
  | c :: cs => nodeChains c ++ chainsOfChilds cs

end

theorem mem_chainsOfChilds {ch : List String} {l : List BlameTreeElement} :
    ch ∈ chainsOfChilds l ↔ ∃ c ∈ l, ch ∈ nodeChains c := by
  induction l with
  | nil => simp [chainsOfChilds]
  | cons c cs ih =>
    simp only [chainsOfChilds, List.mem_append, ih, List.mem_cons]
    constructor
    · rintro (h | ⟨c0, hm, hc⟩)
      · exact ⟨c, Or.inl rfl, h⟩
      · exact ⟨c0, Or.inr hm, hc⟩
    · rintro ⟨c0, (rfl | hm), hc⟩
      · exact Or.inl hc
      · exact Or.inr ⟨c0, hm, hc⟩

/-- C7: every node of a filtered tree keeps the exact root-to-node chain
of names it had in the source tree. -/
theorem claim_c7 : ∀ (t : BlameTreeElement) (ps : List String)
    (f : BlameFilter) (t1 : BlameTreeElement),
    filterBlameTree t ps f = some t1 →
    ∀ ch ∈ nodeChains t1, ch ∈ nodeChains t := by
  intro t
  induction t using BlameTreeElement.recMemBlame with
  | h n o v d cs ih =>
    intro ps f t1 hf ch hch
    cases cs with
    | nil =>
      simp only [filterBlameTree] at hf
      split at hf
      · cases hf; exact hch
      · cases hf
    | cons c cs1 =>
      simp only [filterBlameTree] at hf
      split at hf
      · cases hf
      · cases hf
        simp only [nodeChains, List.mem_cons, List.mem_map] at hch
        rcases hch with rfl | ⟨ch0, hch0, rfl⟩
        · simp [nodeChains]
        · obtain ⟨x, hxm, hx⟩ := mem_chainsOfChilds.mp hch0
          obtain ⟨c0, hc0m, hc0⟩ := mem_filterChilds.mp hxm
          have : ch0 ∈ nodeChains c0 := ih c0 hc0m (ps ++ [n]) f x hc0 ch0 hx
          simp only [nodeChains, List.mem_cons, List.mem_map]
          exact Or.inr ⟨ch0, mem_chainsOfChilds.mpr ⟨c0, hc0m, this⟩, rfl⟩


/-! ## Concrete blame trees used by witnesses -/

def wLeafAB : BlameTreeElement := ⟨"ab", "running", some "1", none, []⟩

def wLeafXY : BlameTreeElement := ⟨"xy", "default", some "2", none, []⟩

def wTree : BlameTreeElement := ⟨"root", "", none, none, [wLeafAB, wLeafXY]⟩

def wFilter : BlameFilter := ⟨"a*", "", "", false⟩

theorem claim_c1_witness :
    (filterBlameTree ⟨"root", "", none, none, [wLeafAB, wLeafXY]⟩ [] wFilter =
      (if (([wLeafAB, wLeafXY].filterMap
            (fun c => filterBlameTree c ([] ++ ["root"]) wFilter)).isEmpty)
       then none
       else some ⟨"root", "", none, none,
         [wLeafAB, wLeafXY].filterMap
           (fun c => filterBlameTree c ([] ++ ["root"]) wFilter)⟩)) ∧
    getFilteredBlameTree wTree ⟨"", "", "", false⟩ = some wTree :=
  ⟨(claim_c1 wFilter "root" "" none none [wLeafAB, wLeafXY] [] wTree).2.1
      (List.cons_ne_nil _ _),
   (claim_c1 ⟨"", "", "", false⟩ "r" "" none none [] [] wTree).2.2 rfl rfl rfl rfl⟩

theorem claim_c6_witness :
    filterBlameTree ⟨"root", "", none, none, [wLeafAB]⟩ [] wFilter =
      some ⟨"root", "", none, none, [wLeafAB]⟩ :=
  claim_c6 wTree [] wFilter ⟨"root", "", none, none, [wLeafAB]⟩ (by rfl)

theorem claim_c7_witness :
    ["root", "ab"] ∈ nodeChains wTree :=
  claim_c7 wTree [] wFilter ⟨"root", "", none, none, [wLeafAB]⟩ (by rfl)
    ["root", "ab"] (by decide)

/-! ## Schema model (goyang yang.Entry, read-only input to the engine)

`yang.Entry.Dir` is a Go map iterated in unspecified order; the model
fixes one iteration order by using a list, which both search variants
and the index pass share.  Only the fields the embedded code reads are
modelled. -/

inductive EntryKind where
  | LeafEntry
  | DirectoryEntry
  | AnyDataEntry
  | AnyXMLEntry
  | CaseEntry
  | ChoiceEntry
  | InputEntry
  | NotificationEntry
  | OutputEntry
  | DeviateEntry
deriving DecidableEq, Repr

inductive TypeKind where
  | Ynone
  | Yint8
  | Yint16
  | Yint32
  | Yint64
  | Yuint8
  | Yuint16
  | Yuint32
  | Yuint64
  | Ybinary
  | Ybits
  | Ybool
  | Ydecimal64
  | Yempty
  | Yenum
  | Yidentityref
  | YinstanceIdentifier
  | Yleafref
  | Ystring
  | Yunion
deriving DecidableEq, Repr

structure ListAttr where
  minElements : Nat
  maxElements : Nat

/-- goyang yang.YangType: `types` are union member types, `path` the
leafref target expression, `enumNames` the declared enumerator names,
`range`/`pattern` the declared constraints (pre-rendered to strings;
their exact text is irrelevant to every claim). -/
structure YangType where
  name : String
  kind : TypeKind
  path : String
  optionalInstance : Bool
  types : List YangType
  enumNames : List String
  range : List String
  pattern : List String

/-- goyang AST statement node (Entry.Node.Statement()). -/
structure YangStatement where
  keyword : String
  argument : String
  subStatements : List YangStatement

structure YangEntry where
  name : String
  kind : EntryKind
  description : String
  key : String
  listAttr : Option ListAttr
  etype : Option YangType
  node : Option YangStatement
  dir : List YangEntry

/-- Member-wise induction principle for the nested schema tree. -/
theorem YangEntry.recMemEntry {P : YangEntry → Prop}
    (h : ∀ n k ds ky la ty nd dir, (∀ c ∈ dir, P c) →
      P ⟨n, k, ds, ky, la, ty, nd, dir⟩) :
    ∀ e, P e
  | ⟨n, k, ds, ky, la, ty, nd, dir⟩ =>
    h n k ds ky la ty nd dir (fun c hc =>
      have : sizeOf c < sizeOf (YangEntry.mk n k ds ky la ty nd dir) := by
        have := List.sizeOf_lt_of_mem hc
        simp only [YangEntry.mk.sizeOf_spec]
        omega
      YangEntry.recMemEntry h c)
termination_by e => sizeOf e

/-! ## Search data model (pkg/cmd/search.go, pkg/cmd/search_types.go) -/

/-- pkg/cmd/search_types.go KeyDependency. -/
structure KeyDependency where
  listPath : String
  keyNames : List String
  level : Nat

/-- pkg/cmd/search_types.go Reference; empty description models the
absent field. -/
structure Reference where
  rtype : String
  targetPath : String
  description : String

/-- pkg/cmd/search_types.go Constraint; empty errorMsg models the absent
field. -/
structure Constraint where
  ctype : String
  expression : String
  errorMsg : String

/-- pkg/cmd/search_types.go DependencyInfo. -/
structure DependencyInfo where
  requiredKeys : List KeyDependency
  references : List Reference
  referencedBy : List String
  constraints : List Constraint

/-- pkg/cmd/search.go SearchResult (`rtype` is the source field `Type`,
renamed because `type` is a Lean keyword). -/
structure SearchResult where
  path : String
  leafName : String
  rtype : String
  description : String
  keys : List String
  dependencies : Option DependencyInfo

/-- pkg/cmd/search.go SearchOptions, restricted to the fields the search
logic reads. -/
structure SearchOptions where
  keyword : String
  caseSensitive : Bool
  includeDependencies : Bool

/-- pkg/cmd/search_types.go PathContext. -/
structure PathContext where
  pathParts : List String
  listKeys : List KeyDependency

/-- pkg/cmd/search_types.go PathContext.GetFullPath. -/
def getFullPath (pc : PathContext) : String :=
  if pc.pathParts.isEmpty then "/"
  else "/" ++ String.intercalate "/" pc.pathParts

/-- ASCII whitespace, sufficient for Go strings.Fields on the schema key
strings in scope. -/
def isSpaceChar (c : Char) : Bool :=
  c == ' ' || c == '\t' || c == '\n' || c == '\r'

/-- Go strings.Fields: whitespace-separated words, no empties. -/
def fieldsAux : Nat → List Char → List (List Char)
  | 0, _ => []
  | fuel + 1, s =>
    match s.dropWhile isSpaceChar with
    | [] => []
    | c :: rest =>
      (c :: rest.takeWhile (fun x => !isSpaceChar x)) ::
        fieldsAux fuel (rest.dropWhile (fun x => !isSpaceChar x))

def fields (s : String) : List String :=
  (fieldsAux (s.data.length + 1) s.data).map (fun l => String.mk l)

/-- pkg/cmd/search.go buildPathPartWithKeys. -/
def buildPathPartWithKeys (entry : YangEntry) : String :=
  if entry.key = "" then entry.name
  else
    let keys := fields entry.key
    if keys.isEmpty then entry.name
    else
      entry.name ++ "[" ++
        String.intercalate "," (keys.map (fun k => k ++ "=<key>")) ++ "]"

/-- pkg/cmd/search.go getEntryKeys (a nil slice and an empty one are both
the empty list here). -/
def getEntryKeys (entry : YangEntry) : List String :=
  if entry.key = "" then [] else fields entry.key

/-- pkg/cmd/search.go getEntryType. -/
def getEntryType (entry : YangEntry) : String :=
  match entry.kind with
  | .DirectoryEntry => "container"
  | .LeafEntry =>
    if entry.listAttr.isSome then "leaf-list"
    else
      match entry.etype with
      | some t => "leaf (" ++ t.name ++ ")"
      | none => "leaf"
  | .ChoiceEntry => "choice"
  | .CaseEntry => "case"
  | .AnyDataEntry => "anydata"
  | .AnyXMLEntry => "anyxml"
  | .NotificationEntry => "notification"
  | .InputEntry => "input"
  | .OutputEntry => "output"
  | _ => if entry.listAttr.isSome then "list" else "unknown"

/-- pkg/cmd/search.go matchesSearch: note every MatchesPattern call
passes caseSensitive = false, regardless of o.caseSensitive. -/
def matchesSearch (o : SearchOptions) (entry : YangEntry)
    (fullPath : String) : Bool :=
  let leafMatches := matchesPattern entry.name o.keyword false
  let pathMatches := matchesPattern fullPath o.keyword false
  let descMatches :=
    if entry.description ≠ "" then
      matchesPattern entry.description o.keyword false
    else false
  leafMatches || pathMatches || descMatches

/-! ## Dependency collector (pkg/cmd/search_dependencies.go) -/

/-- TrimSpace on both ends (ASCII whitespace). -/
def trimSpaceChars (cs : List Char) : List Char :=
  ((cs.dropWhile isSpaceChar).reverse.dropWhile isSpaceChar).reverse

/-- The predicate-stripping loop of normalizeXPath: brackets toggle the
in-predicate flag and are themselves never emitted. -/
def stripPredicates : List Char → Bool → List Char
  | [], _ => []
  | c :: cs, inPred =>
    if c == '[' then stripPredicates cs true
    else if c == ']' then stripPredicates cs false
    else if inPred then stripPredicates cs inPred
    else c :: stripPredicates cs inPred

/-- pkg/cmd/search_dependencies.go normalizeXPath. -/
def normalizeXPath (s : String) : String :=
  let cs := trimSpaceChars s.data
  if ['.', '.', '/'].isPrefixOf cs then String.mk cs
  else String.mk (stripPredicates cs false)

mutual

/-- pkg/cmd/search_dependencies.go indexTypeReferences, as the list of
(normalized target, source) pairs it appends to the reverse index. -/
def typeRefPairs : YangType → String → List (String × String)
  | t@⟨_, _, _, _, tys, _, _, _⟩, sourcePath =>
    (if t.kind = TypeKind.Yleafref ∧ t.path ≠ "" then
      [(normalizeXPath t.path, sourcePath)]
    else []) ++
    (if t.kind = TypeKind.Yunion then unionRefPairs tys sourcePath else [])

def unionRefPairs : List YangType → String → List (String × String)
  | [], _ => []
  | t :: ts, sp => typeRefPairs t sp ++ unionRefPairs ts sp

end

mutual

/-- pkg/cmd/search_dependencies.go indexReferences, with the mutable map
flattened to the list of (target, source) pairs recorded in traversal
order; per-target lookup order is preserved. -/
def indexReferences : YangEntry → List String → List (String × String)
  | entry@⟨_, _, _, _, _, _, _, dir⟩, currentPath =>
    let pathParts :=
      if entry.name ≠ "" then currentPath ++ [entry.name] else currentPath
    let fullPath := "/" ++ String.intercalate "/" pathParts
    (match entry.etype with
     | some t => typeRefPairs t fullPath
     | none => []) ++ indexChilds dir pathParts

def indexChilds : List YangEntry → List String → List (String × String)
  | [], _ => []
  | c :: cs, p => indexReferences c p ++ indexChilds cs p

end

/-- Reverse-index lookup: all sources recorded for a target, in
recording order (the Go map append semantics). -/
def lookupRef (idx : List (String × String)) (target : String) :
    List String :=
  (idx.filter (fun pr => pr.1 == target)).map (fun pr => pr.2)

/-- The per-result body of PopulateReferencedBy: when the index has the
result path, ensure a dependency record exists and overwrite its
referencedBy with the recorded sources. -/
def populateOne (idx : List (String × String)) (r : SearchResult) :
    SearchResult :=
  let refs := lookupRef idx r.path
  if refs.isEmpty then r
  else
    match r.dependencies with
    | none =>
      { r with dependencies := some (DependencyInfo.mk [] [] refs []) }
    | some d => { r with dependencies := some { d with referencedBy := refs } }

/-- pkg/cmd/search_dependencies.go PopulateReferencedBy. -/
def populateReferencedBy (idx : List (String × String))
    (results : List SearchResult) : List SearchResult :=
  results.map (populateOne idx)

mutual

/-- Specification device: every entry the index pass visits, paired with
the path parts (current path plus own name) it carries there. -/
def walkEntries : YangEntry → List String → List (List String × YangEntry)
  | entry@⟨_, _, _, _, _, _, _, dir⟩, currentPath =>
    let pathParts :=
      if entry.name ≠ "" then currentPath ++ [entry.name] else currentPath
    (pathParts, entry) :: walkChilds dir pathParts

def walkChilds : List YangEntry → List String → List (List String × YangEntry)
  | [], _ => []
  | c :: cs, p => walkEntries c p ++ walkChilds cs p

end

mutual

/-- Specification device: the normalized leafref targets inside a type,
unions included — the targets indexTypeReferences records. -/
def leafrefTargets : YangType → List String
  | t@⟨_, _, _, _, tys, _, _, _⟩ =>
    (if t.kind = TypeKind.Yleafref ∧ t.path ≠ "" then
      [normalizeXPath t.path]
    else []) ++
    (if t.kind = TypeKind.Yunion then leafrefTargetsList tys else [])

def leafrefTargetsList : List YangType → List String
  | [] => []
  | t :: ts => leafrefTargets t ++ leafrefTargetsList ts

end

mutual

/-- pkg/cmd/search_dependencies.go collectTypeReferences. -/
def collectTypeReferences : YangType → List Reference
  | t@⟨_, _, _, _, tys, _, _, _⟩ =>
    (if t.kind = TypeKind.Yleafref then
      [⟨"leafref", normalizeXPath t.path, ""⟩]
    else []) ++
    (if t.kind = TypeKind.YinstanceIdentifier then
      [⟨"instance-identifier", "dynamic",
        if t.optionalInstance then "optional instance" else "required instance"⟩]
    else []) ++
    (if t.kind = TypeKind.Yunion then collectUnionRefs tys else [])

def collectUnionRefs : List YangType → List Reference
  | [] => []
  | t :: ts => collectTypeReferences t ++ collectUnionRefs ts

end

/-- pkg/cmd/search_dependencies.go collectReferences. -/
def collectReferences (entry : YangEntry) : List Reference :=
  match entry.etype with
  | none => []
  | some t => collectTypeReferences t

/-- One iteration of the collectConstraints loop. -/
def constraintOf (stmt : YangStatement) : Option Constraint :=
  if stmt.keyword = "must" then
    some ⟨"must", stmt.argument,
      match stmt.subStatements.find? (fun s => s.keyword == "error-message") with
      | some s => s.argument
      | none => ""⟩
  else if stmt.keyword = "when" then
    some ⟨"when", stmt.argument, ""⟩
  else none

/-- pkg/cmd/search_dependencies.go collectConstraints. -/
def collectConstraints (entry : YangEntry) : List Constraint :=
  match entry.node with
  | none => []
  | some st => st.subStatements.filterMap constraintOf

/-- pkg/cmd/search_dependencies.go CollectDependencies: nil when keys,
references and constraints are all empty (referencedBy is filled later). -/
def collectDependencies (entry : YangEntry) (ctx : PathContext) :
    Option DependencyInfo :=
  let requiredKeys := ctx.listKeys
  let references := collectReferences entry
  let constraints := collectConstraints entry
  if requiredKeys.isEmpty && references.isEmpty && constraints.isEmpty then
    none
  else some ⟨requiredKeys, references, [], constraints⟩

mutual

/-- pkg/cmd/search.go searchEntry (simple search), returning the results
it appends, in order. -/
def searchEntry : SearchOptions → YangEntry → List String → List SearchResult
  | o, entry@⟨_, _, _, _, _, _, _, dir⟩, currentPath =>
    let pathParts :=
      currentPath ++
        (if entry.name ≠ "" then [buildPathPartWithKeys entry] else [])
    let fullPath := "/" ++ String.intercalate "/" pathParts
    (if matchesSearch o entry fullPath then
      [⟨fullPath, entry.name, getEntryType entry, entry.description,
        getEntryKeys entry, none⟩]
    else []) ++ searchChilds o dir pathParts

def searchChilds : SearchOptions → List YangEntry → List String →
    List SearchResult
  | _, [], _ => []
  | o, c :: cs, p => searchEntry o c p ++ searchChilds o cs p

end

/-- The context manipulation at the head of searchEntryWithContext:
clone, add the (key-annotated) path part, and, for a keyed list, record
a level-0 list-key binding whose list path is the context full path. -/
def contextAfter (entry : YangEntry) (ctx : PathContext) : PathContext :=
  if entry.name ≠ "" then
    let cc1 : PathContext :=
      { ctx with pathParts := ctx.pathParts ++ [buildPathPartWithKeys entry] }
    if entry.listAttr.isSome ∧ entry.key ≠ "" then
      { cc1 with listKeys :=
          cc1.listKeys ++ [⟨getFullPath cc1, fields entry.key, 0⟩] }
    else cc1
  else ctx

mutual

/-- pkg/cmd/search.go searchEntryWithContext (the collector argument is
only used for CollectDependencies, which carries no collector state). -/
def searchEntryWithContext : SearchOptions → YangEntry → PathContext →
    List SearchResult
  | o, entry@⟨_, _, _, _, _, _, _, dir⟩, ctx =>
    let cc := contextAfter entry ctx
    let fullPath := getFullPath cc
    (if matchesSearch o entry fullPath then
      [⟨fullPath, entry.name, getEntryType entry, entry.description,
        getEntryKeys entry,
        if o.includeDependencies then collectDependencies entry cc else none⟩]
    else []) ++
    searchChildsWithContext o dir
      { cc with listKeys := cc.listKeys.map (fun kd => { kd with level := kd.level + 1 }) }

def searchChildsWithContext : SearchOptions → List YangEntry → PathContext →
    List SearchResult
  | _, [], _ => []
  | o, c :: cs, cc =>
    searchEntryWithContext o c cc ++ searchChildsWithContext o cs cc

end

/-- pkg/cmd/search.go searchWithDependencies: index pass, contextual
search, then reverse-reference population. -/
def searchWithDependencies (o : SearchOptions) (rootEntry : YangEntry) :
    List SearchResult :=
  let idx := indexReferences rootEntry []
  let results := searchEntryWithContext o rootEntry ⟨[], []⟩
  populateReferencedBy idx results

/-- Forget the dependencies field of a result (used to compare the two
search variants). -/
def stripDeps (r : SearchResult) : SearchResult :=
  { r with dependencies := none }


/-- Concrete schema leaf used by the C3 theorem. -/
def wIface : YangEntry := ⟨"interface", .LeafEntry, "", "", none, none, none, []⟩

/-- C3: the search keyword matching ignores the case-sensitivity flag —
matchesSearch always hands caseSensitive = false to the pattern matcher,
so the OR over name, path and description is case-insensitive for every
value of the flag (claim says the flag controls it; the code never reads
it: a slip, since the flag is documented as "Enable case-sensitive
search"). -/
theorem claim_c3 :
    (∀ (o : SearchOptions) (b : Bool) (e : YangEntry) (p : String),
      matchesSearch { o with caseSensitive := b } e p = matchesSearch o e p) ∧
    (∀ b : Bool,
      matchesSearch ⟨"Interface", b, false⟩ wIface "/interface" = true) := by
  constructor
  · intro o b e p
    rfl
  · intro b
    rfl

/-- C9: a result whose node has no ancestor list keys, no leafref or
instance-identifier references, no must/when constraints, and whose path
has no inbound reverse references keeps an absent (none) dependencies
field through CollectDependencies and PopulateReferencedBy. -/
theorem claim_c9 (e : YangEntry) (ctx : PathContext)
    (idx : List (String × String)) (r : SearchResult) :
    ctx.listKeys = [] →
    collectReferences e = [] →
    collectConstraints e = [] →
    lookupRef idx r.path = [] →
    r.dependencies = collectDependencies e ctx →
    (populateOne idx r).dependencies = none := by
  intro h1 h2 h3 h4 h5
  have hc : collectDependencies e ctx = none := by
    simp [collectDependencies, h1, h2, h3]
  simp [populateOne, h4, h5, hc]

/-- Concrete plain leaf used by the C9 witness. -/
def wPlainLeaf : YangEntry :=
  ⟨"mtu", .LeafEntry, "", "", none,
    some ⟨"uint16", .Yuint16, "", false, [], [], [], []⟩, none, []⟩

theorem claim_c9_witness :
    (populateOne []
      (⟨"/mtu", "mtu", "leaf (uint16)", "", [],
        collectDependencies wPlainLeaf ⟨["mtu"], []⟩⟩ : SearchResult)).dependencies
      = none :=
  claim_c9 wPlainLeaf ⟨["mtu"], []⟩ []
    ⟨"/mtu", "mtu", "leaf (uint16)", "", [],
      collectDependencies wPlainLeaf ⟨["mtu"], []⟩⟩ rfl rfl rfl rfl rfl


/-- Member-wise induction principle for the nested type structure. -/
theorem YangType.recMemType {P : YangType → Prop}
    (h : ∀ nm kd ph oi tys en rg pt, (∀ c ∈ tys, P c) →
      P ⟨nm, kd, ph, oi, tys, en, rg, pt⟩) :
    ∀ t, P t
  | ⟨nm, kd, ph, oi, tys, en, rg, pt⟩ =>
    h nm kd ph oi tys en rg pt (fun c hc =>
      have : sizeOf c < sizeOf (YangType.mk nm kd ph oi tys en rg pt) := by
        have := List.sizeOf_lt_of_mem hc
        simp only [YangType.mk.sizeOf_spec]
        omega
      YangType.recMemType h c)
termination_by t => sizeOf t

theorem unionRefPairs_eq (sp : String) (l : List YangType)
    (ih : ∀ c ∈ l, typeRefPairs c sp = (leafrefTargets c).map (fun y => (y, sp))) :
    unionRefPairs l sp = (leafrefTargetsList l).map (fun y => (y, sp)) := by
  induction l with
  | nil => rfl
  | cons a as ihl =>
    simp only [unionRefPairs, leafrefTargetsList, List.map_append]
    rw [ih a (List.mem_cons_self a as),
      ihl (fun c hc => ih c (List.mem_cons_of_mem a hc))]

/-- The pairs the index pass records for a type are exactly its
normalized leafref targets, each paired with the source path. -/
theorem typeRefPairs_eq : ∀ (t : YangType) (sp : String),
    typeRefPairs t sp = (leafrefTargets t).map (fun y => (y, sp)) := by
  intro t
  induction t using YangType.recMemType with
  | h nm kd ph oi tys en rg pt ih =>
    intro sp
    simp only [typeRefPairs, leafrefTargets, List.map_append]
    congr 1
    · split <;> rfl
    · split
      · exact unionRefPairs_eq sp tys (fun c hc => ih c hc sp)
      · rfl

theorem mem_walkChilds {x : List String × YangEntry} {l : List YangEntry}
    {p : List String} :
    x ∈ walkChilds l p ↔ ∃ c ∈ l, x ∈ walkEntries c p := by
  induction l with
  | nil => simp [walkChilds]
  | cons c cs ih =>
    simp only [walkChilds, List.mem_append, ih, List.mem_cons]
    constructor
    · rintro (h | ⟨c0, hm, hc⟩)
      · exact ⟨c, Or.inl rfl, h⟩
      · exact ⟨c0, Or.inr hm, hc⟩
    · rintro ⟨c0, (rfl | hm), hc⟩
      · exact Or.inl hc
      · exact Or.inr ⟨c0, hm, hc⟩

theorem mem_indexChilds {x : String × String} {l : List YangEntry}
    {p : List String} {c : YangEntry} (hc : c ∈ l)
    (hx : x ∈ indexReferences c p) : x ∈ indexChilds l p := by
  induction l with
  | nil => cases hc
  | cons a as ih =>
    simp only [indexChilds, List.mem_append]
    rcases List.mem_cons.mp hc with rfl | hm
    · exact Or.inl hx
    · exact Or.inr (ih hm)

/-- Every leafref found at a visited entry is recorded in the reverse
index under its normalized target, with the visit path as source. -/
theorem index_of_walk : ∀ (root : YangEntry) (cp ps : List String)
    (e : YangEntry) (t : YangType) (y : String),
    (ps, e) ∈ walkEntries root cp →
    e.etype = some t →
    y ∈ leafrefTargets t →
    (y, "/" ++ String.intercalate "/" ps) ∈ indexReferences root cp := by
  intro root
  induction root using YangEntry.recMemEntry with
  | h nm kd ds ky la ty nd dir ih =>
    intro cp ps e t y hw het hy
    simp only [walkEntries] at hw
    rcases List.mem_cons.mp hw with heq | hmem
    · injection heq with h1 h2
      subst h1
      subst h2
      replace het : ty = some t := het
      subst het
      simp only [indexReferences, List.mem_append]
      left
      rw [typeRefPairs_eq]
      exact List.mem_map.mpr ⟨y, hy, rfl⟩
    · obtain ⟨c, hcm, hcw⟩ := mem_walkChilds.mp hmem
      simp only [indexReferences, List.mem_append]
      exact Or.inr (mem_indexChilds hcm (ih c hcm _ ps e t y hcw het hy))

/-- C4: if a visited node has a leafref (possibly inside a union) whose
target normalizes to y, then after the index pass, populating any search
result whose path is y attaches a dependency record whose referencedBy
contains the leafref node's source path. -/
theorem claim_c4 (root e : YangEntry) (ps : List String) (t : YangType)
    (y : String) (r : SearchResult) :
    (ps, e) ∈ walkEntries root [] →
    e.etype = some t →
    y ∈ leafrefTargets t →
    r.path = y →
    ∃ d, (populateOne (indexReferences root []) r).dependencies = some d ∧
      ("/" ++ String.intercalate "/" ps) ∈ d.referencedBy := by
  intro hw het hy hp
  have hidx := index_of_walk root [] ps e t y hw het hy
  have hlook : ("/" ++ String.intercalate "/" ps) ∈
      lookupRef (indexReferences root []) y := by
    unfold lookupRef
    refine List.mem_map.mpr ⟨(y, "/" ++ String.intercalate "/" ps), ?_, rfl⟩
    exact List.mem_filter.mpr ⟨hidx, by simp⟩
  have hne : (lookupRef (indexReferences root []) r.path).isEmpty = false := by
    rw [hp]
    simpa [List.isEmpty_iff] using List.ne_nil_of_mem hlook
  unfold populateOne
  simp only [hne, Bool.false_eq_true, if_false]
  cases r.dependencies with
  | none => exact ⟨_, rfl, by rw [hp]; exact hlook⟩
  | some d => exact ⟨_, rfl, by rw [hp]; exact hlook⟩


/-! ## Concrete schema used by the C4 witness -/

def wTypeLeafref : YangType := ⟨"lref", .Yleafref, "/m/y", false, [], [], [], []⟩

def wLeafXref : YangEntry :=
  ⟨"x", .LeafEntry, "", "", none, some wTypeLeafref, none, []⟩

def wLeafY : YangEntry := ⟨"y", .LeafEntry, "", "", none, none, none, []⟩

def wRootSchema : YangEntry :=
  ⟨"m", .DirectoryEntry, "", "", none, none, none, [wLeafXref, wLeafY]⟩

def wResY : SearchResult := ⟨"/m/y", "y", "leaf", "", [], none⟩

theorem claim_c4_witness :
    ∃ d, (populateOne (indexReferences wRootSchema []) wResY).dependencies
        = some d ∧
      ("/" ++ String.intercalate "/" ["m", "x"]) ∈ d.referencedBy :=
  claim_c4 wRootSchema wLeafXref ["m", "x"] wTypeLeafref "/m/y" wResY
    (List.Mem.tail _ (List.Mem.head _)) rfl (by decide) rfl


theorem getFullPath_eq (pc : PathContext) :
    getFullPath pc = "/" ++ String.intercalate "/" pc.pathParts := by
  unfold getFullPath
  split
  · rename_i h
    rw [List.isEmpty_iff.mp h]
    rfl
  · rfl

theorem searchChilds_ctx_eq (o : SearchOptions) (l : List YangEntry)
    (cc : PathContext)
    (ih : ∀ c ∈ l, ∀ ctx : PathContext,
      (searchEntryWithContext o c ctx).map stripDeps
        = searchEntry o c ctx.pathParts) :
    (searchChildsWithContext o l cc).map stripDeps
      = searchChilds o l cc.pathParts := by
  induction l with
  | nil => rfl
  | cons c cs ihl =>
    simp only [searchChildsWithContext, searchChilds, List.map_append]
    rw [ih c (List.mem_cons_self c cs) cc,
      ihl (fun c2 hc2 => ih c2 (List.mem_cons_of_mem c hc2))]

theorem pathParts_withListKeys (c : PathContext) (x : List KeyDependency) :
    ({ c with listKeys := x } : PathContext).pathParts = c.pathParts := rfl

theorem contextAfter_pathParts (e : YangEntry) (ctx : PathContext) :
    (contextAfter e ctx).pathParts =
      ctx.pathParts ++
        (if e.name ≠ "" then [buildPathPartWithKeys e] else []) := by
  unfold contextAfter
  by_cases hn : e.name ≠ ""
  · rw [if_pos hn, if_pos hn]
    by_cases hk : e.listAttr.isSome ∧ e.key ≠ ""
    · rw [if_pos hk]
    · rw [if_neg hk]
  · rw [if_neg hn, if_neg hn]
    simp

/-- C10: the dependency-aware search yields, position by position, the
same path, leaf name, type, keys and description as the simple search,
differing only in the optional dependencies field. -/
theorem claim_c10 : ∀ (o : SearchOptions) (entry : YangEntry)
    (ctx : PathContext),
    (searchEntryWithContext o entry ctx).map stripDeps
      = searchEntry o entry ctx.pathParts := by
  intro o entry
  induction entry using YangEntry.recMemEntry with
  | h nm kd ds ky la ty nd dir ih =>
    intro ctx
    simp only [searchEntryWithContext, searchEntry, List.map_append]
    rw [getFullPath_eq, contextAfter_pathParts]
    congr 1
    · split <;> split <;> simp [stripDeps]
    · rw [searchChilds_ctx_eq o dir _ (fun c hc => ih c hc)]


/-- containsSub with an empty needle is always true (Go strings.Contains). -/
theorem containsSub_nil : ∀ s : List Char, containsSub s [] = true := by
  intro s
  cases s <;> simp [containsSub, List.isPrefixOf]

/-- C2: the wildcard matcher is anchored, `*` spans arbitrary runs and the
empty pattern is universal — but characters other than `*` are NOT always
literal: the translator escapes dots and then QuoteMetas the already
escaped component, so a `.` in a starred pattern demands a literal
backslash-dot in the text ("a.b" fails against "a.*b"), and the starless
branch skips QuoteMeta entirely, so regex operators stay live ("aab"
matches "a+b").  The first four conjuncts are the claim's examples, which
hold; the last two evaluate the code at inputs where the "other
characters are literal" part of the claim fails. -/
theorem claim_c2 :
    matchesPattern "abc" "a*c" true = true ∧
    matchesPattern "abd" "a*c" true = false ∧
    matchesPattern "x" "" true = true ∧
    matchesPattern "a.b" "a.b" true = true ∧
    matchesPattern "aab" "a+b" true = true ∧
    matchesPattern "a.b" "a.*b" true = false := by
  decide

/-- C5: pattern matching is total and, whenever the embedded regex engine
fails to compile the generated expression, falls back to substring
containment — lower-cased on both sides in case-insensitive mode, as-is
in case-sensitive mode. -/
theorem claim_c5 (text pattern : String) (caseSensitive : Bool)
    (h : regexpMatchString (compiledRegexOf pattern.data caseSensitive)
        text.data = none) :
    matchesPattern text pattern caseSensitive =
      (if caseSensitive then containsSub text.data pattern.data
       else containsSub (lowerChars text.data) (lowerChars pattern.data)) := by
  unfold matchesPattern
  by_cases hp : pattern.data.isEmpty = true
  · rw [if_pos hp]
    rw [List.isEmpty_iff.mp hp]
    cases caseSensitive <;> simp [lowerChars, containsSub_nil]
  · rw [if_neg hp, h]
    cases caseSensitive <;> simp

theorem claim_c5_witness :
    regexpMatchString (compiledRegexOf "(".data true) "x(".data = none ∧
    matchesPattern "x(" "(" true =
      (if true then containsSub "x(".data "(".data
       else containsSub (lowerChars "x(".data) (lowerChars "(".data)) :=
  ⟨by decide, claim_c5 "x(" "(" true (by decide)⟩


/-! ## Template synthesizer (pkg/cmd/gen.go)

The generic Go value tree map[string]interface{} / []interface{} /
scalars is modelled by `TemplateValue`; mapping insertion order is the
child iteration order.  Scalar string renderings of library values
(ranges, %v prints) are approximated — no claim inspects them. -/

inductive TemplateValue where
  | str (s : String)
  | intv (n : Int)
  | boolv (b : Bool)
  | decv
  | list (l : List TemplateValue)
  | map (m : List (String × TemplateValue))

/-- Scalar test: everything but maps and sequences. -/
def isScalar : TemplateValue → Bool
  | .map _ => false
  | .list _ => false
  | _ => true

/-- strings.Split on a single-character separator (empties kept). -/
def splitOnChar (sep : Char) : List Char → List (List Char)
  | [] => [[]]
  | c :: cs =>
    match splitOnChar sep cs with
    | [] => [[]]
    | g :: gs => if c == sep then [] :: g :: gs else (c :: g) :: gs

/-- strings.Trim(path, "/"). -/
def trimSlashes (s : String) : String :=
  String.mk (((s.data.dropWhile (fun c => c == '/')).reverse.dropWhile
    (fun c => c == '/')).reverse)

/-- pkg/cmd/gen.go getDefaultValueForType. -/
def getDefaultValueForType (t : YangType) : TemplateValue :=
  match t.kind with
  | .Ystring => .str "string_value"
  | .Yint8 => .intv 0
  | .Yint16 => .intv 0
  | .Yint32 => .intv 0
  | .Yint64 => .intv 0
  | .Yuint8 => .intv 0
  | .Yuint16 => .intv 0
  | .Yuint32 => .intv 0
  | .Yuint64 => .intv 0
  | .Ybool => .boolv false
  | .Ydecimal64 => .decv
  | .Yenum =>
    match t.enumNames with
    | [] => .str "enum_value"
    | n :: _ => .str n
  | .Yidentityref => .str "identity_value"
  | .Ybinary => .str "base64_encoded_value"
  | .Yempty => .str ""
  | .Yunion => .str "union_value"
  | .Yleafref => .str "leafref_value"
  | _ =>
    if t.name ≠ "" then .str ("value_of_type_" ++ t.name)
    else .str "unknown_value"

/-- Approximate %v rendering of a scalar (never inspected by a claim). -/
def renderScalar : TemplateValue → String
  | .str s => s
  | .intv n => toString n
  | .boolv b => toString b
  | .decv => "0"
  | .list _ => ""
  | .map _ => ""

/-- Approximate %v rendering of a range list (never inspected). -/
def renderRangeList (rs : List String) : String :=
  "[" ++ String.intercalate " " rs ++ "]"

/-- pkg/cmd/gen.go generateLeafTemplate. -/
def generateLeafTemplate (entry : YangEntry) : TemplateValue :=
  match entry.etype with
  | none => .str "value"
  | some t =>
    if entry.listAttr.isSome then .list [getDefaultValueForType t]
    else
      let value := getDefaultValueForType t
      if t.range ≠ [] then
        .str (renderScalar value ++ " <!-- range: " ++
          renderRangeList t.range ++ " -->")
      else if t.pattern ≠ [] then
        .str (renderScalar value ++ " <!-- pattern: " ++
          (t.pattern.headD "") ++ " -->")
      else value

/-- Approximate rendering of a yang.EntryKind (never inspected). -/
def entryKindName : EntryKind → String
  | .LeafEntry => "Leaf"
  | .DirectoryEntry => "Directory"
  | .AnyDataEntry => "AnyData"
  | .AnyXMLEntry => "AnyXML"
  | .CaseEntry => "Case"
  | .ChoiceEntry => "Choice"
  | .InputEntry => "Input"
  | .NotificationEntry => "Notification"
  | .OutputEntry => "Output"
  | .DeviateEntry => "Deviate"

/-- pkg/cmd/gen.go generateListTemplate, with the example-item loop over
the children hoisted into the second argument (processEntry passes
processChilds of the entry's children, exactly the loop the source
runs inline). -/
def generateListTemplate (entry : YangEntry)
    (listItem : List (String × TemplateValue)) : TemplateValue :=
  .map (
    (if entry.key ≠ "" then
      [("_keys", TemplateValue.list
        (((splitOnChar ' ' entry.key.data).map
          (fun l => TemplateValue.str (String.mk l)))))]
    else []) ++
    [("_type", TemplateValue.str "list")] ++
    (match entry.listAttr with
     | some la =>
       [("_min_elements", TemplateValue.intv (Int.ofNat la.minElements)),
        ("_max_elements", TemplateValue.intv (Int.ofNat la.maxElements))]
     | none => []) ++
    [("_list_item_example", TemplateValue.map listItem)])

mutual

/-- pkg/cmd/gen.go processEntry, the switch on entry.Kind compiled to
one equation per kind.  A yang list is a DirectoryEntry with a ListAttr
and therefore takes the container branch, exactly as the Go switch does;
generateListTemplate is only reachable from the default branch (here:
DeviateEntry, the only remaining kind). -/
def processEntry : YangEntry → TemplateValue
  | ⟨_, .DirectoryEntry, _, _, _, _, _, dir⟩ => .map (processChilds dir)
  | e@⟨_, .LeafEntry, _, _, _, _, _, _⟩ => generateLeafTemplate e
  | ⟨_, .ChoiceEntry, _, _, _, _, _, []⟩ =>
    .map [("_choice", .str "select_case")]
  | ⟨_, .ChoiceEntry, _, _, _, _, _, firstCase :: _⟩ => processEntry firstCase
  | ⟨_, .CaseEntry, _, _, _, _, _, dir⟩ => .map (processChilds dir)
  | ⟨_, .AnyDataEntry, _, _, _, _, _, _⟩ =>
    .map [("_anydata", .str "any_data_value")]
  | ⟨_, .AnyXMLEntry, _, _, _, _, _, _⟩ =>
    .map [("_anyxml", .str "any_xml_value")]
  | ⟨_, .NotificationEntry, _, _, _, _, _, dir⟩ =>
    .map [("_notification", .map (processChilds dir))]
  | ⟨_, .InputEntry, _, _, _, _, _, dir⟩ => .map (processChilds dir)
  | ⟨_, .OutputEntry, _, _, _, _, _, dir⟩ => .map (processChilds dir)
  | e@⟨_, .DeviateEntry, _, _, la, _, _, dir⟩ =>
    if la.isSome then generateListTemplate e (processChilds dir)
    else .str ("<!-- " ++ entryKindName e.kind ++ ": " ++ e.name ++ " -->")
termination_by e => (sizeOf e, 1)

/-- The child loops of processEntry/generateTemplate (children are never
nil values here, so every child is kept). -/
def processChilds : List YangEntry → List (String × TemplateValue)
  | [] => []
  | c :: cs => (c.name, processEntry c) :: processChilds cs
termination_by l => (sizeOf l, 0)

end

/-- pkg/cmd/gen.go generateTemplate. -/
def generateTemplate (entry : YangEntry) : List (String × TemplateValue) :=
  match entry.kind with
  | .DirectoryEntry => processChilds entry.dir
  | _ =>
    match processEntry entry with
    | .map m => m
    | v => [(entry.name, v)]

/-- The navigation loop of findEntryByPath. -/
def findLoop : List String → YangEntry → Option YangEntry
  | [], current => some current
  | part :: rest, current =>
    match current.dir.find? (fun child => child.name == part) with
    | some child => findLoop rest child
    | none => none

/-- pkg/cmd/gen.go findEntryByPath. -/
def findEntryByPath (rootEntry : YangEntry) (path : String) :
    Option YangEntry :=
  let path := trimSlashes path
  if path = "" ∨ path = "/" then some rootEntry
  else
    findLoop ((splitOnChar '/' path.data).map (fun l => String.mk l)) rootEntry


/-! ## Path key scanners (pkg/cmd/gen.go, pkg/utils/path.go)

Two fixed Go regexes operate on model paths.  ExtractKeysFromPath uses
([^=[,]+)=<[^>]+> : because the captured class excludes = and the value
class excludes >, RE2's leftmost-first greedy matching is deterministic:
the capture is the maximal stop-free run, which must be followed by =<,
a maximal >-free nonempty run, and >.  keyScan applies that single-match
scanner repeatedly, continuing after each match, exactly like
FindAllStringSubmatch. -/

/-- Characters on which the capture class of the extraction regex stops. -/
def nonStopChar (c : Char) : Bool := !(c == '=' || c == '[' || c == ',')

/-- One leftmost-match attempt of the key-extraction regex at the head
of the input: the captured key and the rest after the match. -/
def tryKeyMatch (cs : List Char) : Option (String × List Char) :=
  let g := cs.takeWhile nonStopChar
  if g.isEmpty then none
  else
    match cs.drop g.length with
    | '=' :: '<' :: rest2 =>
      let b := rest2.takeWhile (fun c => !(c == '>'))
      if b.isEmpty then none
      else
        match rest2.drop b.length with
        | '>' :: rest3 => some (String.mk g, rest3)
        | _ => none
    | _ => none

theorem takeWhile_len_le {α : Type} (p : α → Bool) :
    ∀ l : List α, (l.takeWhile p).length ≤ l.length := by
  intro l
  induction l with
  | nil => simp
  | cons c cs ih =>
    rw [List.takeWhile_cons]
    split
    · simpa using ih
    · simp

theorem tryKeyMatch_length {cs : List Char} {k : String} {rest : List Char}
    (h : tryKeyMatch cs = some (k, rest)) : rest.length < cs.length := by
  simp only [tryKeyMatch] at h
  split at h
  · cases h
  · rename_i hg
    split at h
    · rename_i rest2 heq1
      split at h
      · cases h
      · rename_i hb
        split at h
        · rename_i rest3 heq2
          injection h with h1
          injection h1 with h2 h3
          subst h3
          have l1 := congrArg List.length heq1
          have l2 := congrArg List.length heq2
          simp only [List.length_drop, List.length_cons] at l1 l2
          have l3 : (cs.takeWhile nonStopChar).length ≤ cs.length :=
            takeWhile_len_le _ cs
          have l4 :
              (rest2.takeWhile (fun c => !(c == '>'))).length ≤ rest2.length :=
            takeWhile_len_le _ rest2
          omega
        · cases h
    · cases h

/-- The repeated-match loop of FindAllStringSubmatch for the
key-extraction regex. -/
def keyScan : List Char → List String
  | [] => []
  | c :: cs =>
    match h : tryKeyMatch (c :: cs) with
    | some (k, rest) => k :: keyScan rest
    | none => keyScan cs
termination_by cs => cs.length
decreasing_by
  · exact tryKeyMatch_length h
  · simp only [List.length_cons]
    omega

/-- pkg/cmd/gen.go extractKeysFromPath. -/
def extractKeysFromPath (path : String) : List String := keyScan path.data

/-! StripKeysFromPath uses the regex [[^]]+=<[^>]+>] (a bracketed key
expression).  RE2 backtracking tries the longest bracket-content run
first; the value run is forced maximal because it cannot contain >.
The scanner below mirrors that backtracking: the candidate length of the
first class decreases until the remainder parses. -/

/-- Backtracking over candidate lengths (longest first) for the
[^]]+ component, given the characters after the opening bracket. -/
def bracketBacktrack : Nat → List Char → Option (List Char)
  | 0, _ => none
  | i + 1, cs =>
    if (cs.drop (i + 1)).take 2 = ['=', '<'] then
      let afterEq := cs.drop (i + 3)
      let b := afterEq.takeWhile (fun c => !(c == '>'))
      if !b.isEmpty ∧ (afterEq.drop b.length).take 2 = ['>', ']'] then
        some ((afterEq.drop b.length).drop 2)
      else bracketBacktrack i cs
    else bracketBacktrack i cs

/-- One match attempt of the bracketed-key regex at the head of the
input; returns the rest after the whole match. -/
def tryBracket : List Char → Option (List Char)
  | '[' :: rest =>
    bracketBacktrack (rest.takeWhile (fun c => !(c == ']'))).length rest
  | _ => none

/-- ReplaceAllString with the empty replacement: emit characters,
skipping every leftmost match.  Fuel-bounded; each step consumes at
least one character, so length + 1 fuel always suffices. -/
def stripScanF : Nat → List Char → List Char
  | 0, _ => []
  | _ + 1, [] => []
  | fuel + 1, c :: cs =>
    match tryBracket (c :: cs) with
    | some rest => stripScanF fuel rest
    | none => c :: stripScanF fuel cs

/-- pkg/cmd/gen.go stripKeysFromPath (also pkg/utils/path.go). -/
def stripKeysFromPath (path : String) : String :=
  String.mk (stripScanF (path.data.length + 1) path.data)

/-- pkg/cmd/gen.go shouldExclude. -/
def shouldExclude (name : String) (excludeKeys : List String) : Bool :=
  excludeKeys.any (fun key => name == key)

/-- pkg/cmd/gen.go removeKeysFromTemplate: drop excluded keys, recurse
into nested mappings only (sequences are kept verbatim). -/
def removeKeysFromTemplate :
    List (String × TemplateValue) → List String → List (String × TemplateValue)
  | [], _ => []
  | (nm, v) :: rest, keys =>
    if shouldExclude nm keys then removeKeysFromTemplate rest keys
    else
      match v with
      | .map m =>
        (nm, TemplateValue.map (removeKeysFromTemplate m keys)) ::
          removeKeysFromTemplate rest keys
      | _ => (nm, v) :: removeKeysFromTemplate rest keys

/-! ## Resource wrapper (pkg/cmd/gen.go sdc-conf output) -/

structure GenOptions where
  modelPath : String
  outputFormat : String

structure SDCConfigItem where
  path : String
  value : List (String × TemplateValue)

structure SDCMetadata where
  name : String
  namespace1 : String
  labels : List (String × String)

structure SDCLifecycle where
  deletionPolicy : String

structure SDCSpec where
  lifecycle : SDCLifecycle
  revertive : Bool
  priority : Int
  config : List SDCConfigItem

structure SDCConfig where
  apiVersion : String
  kind : String
  metadata : SDCMetadata
  spec : SDCSpec

/-- pkg/cmd/gen.go generateTemplateFromYang, with the module loading and
root-entry construction abstracted into the rootEntry argument. -/
def generateTemplateFromYang (o : GenOptions) (rootEntry : YangEntry) :
    Option (List (String × TemplateValue)) :=
  let cleanPath := stripKeysFromPath o.modelPath
  match findEntryByPath rootEntry cleanPath with
  | none => none
  | some entry =>
    let template := generateTemplate entry
    let keysToExclude := extractKeysFromPath o.modelPath
    if 0 < keysToExclude.length ∧
        (o.outputFormat = "sdc-conf" ∨ o.outputFormat = "xml") then
      some (removeKeysFromTemplate template keysToExclude)
    else some template

/-- pkg/cmd/gen.go generateSDCConfig. -/
def generateSDCConfig (o : GenOptions)
    (template : List (String × TemplateValue)) : SDCConfig :=
  let name :=
    if o.modelPath ≠ "/" ∧ o.modelPath ≠ "" then
      let cleanPath := stripKeysFromPath (trimSlashes o.modelPath)
      if cleanPath ≠ "" then
        let pathParts := (splitOnChar '/' cleanPath.data).map
          (fun l => String.mk l)
        "gen-sdcio-config" ++ "-" ++ (pathParts.getLast?.getD "")
      else "gen-sdcio-config"
    else "gen-sdcio-config"
  { apiVersion := "config.sdcio.dev/v1alpha1"
    kind := "Config"
    metadata :=
      { name := name
        namespace1 := "default"
        labels := [("config.sdcio.dev/targetName", "targetName"),
          ("config.sdcio.dev/targetNamespace", "default")] }
    spec :=
      { lifecycle := { deletionPolicy := "orphan" }
        revertive := true
        priority := 100
        config := [{ path := o.modelPath, value := template }] } }


/-! ## C8 machinery: key occurrence and the generated-template invariant -/

mutual

/-- No mapping occurs inside a sequence anywhere in the value (the shape
every generated template has; removeKeysFromTemplate recurses into maps
only, so this is what makes the stripping exhaustive). -/
def scalarsOnlyVal : TemplateValue → Bool
  | .map m => scalarsOnlyMap m
  | .list l => l.all isScalar
  | _ => true

def scalarsOnlyMap : List (String × TemplateValue) → Bool
  | [] => true
  | (_, v) :: rest => scalarsOnlyVal v && scalarsOnlyMap rest

end

mutual

/-- k occurs as a mapping key at some nesting level of the value. -/
def hasKeyVal (k : String) : TemplateValue → Bool
  | .map m => hasKeyMap k m
  | .list l => hasKeyList k l
  | _ => false

def hasKeyMap (k : String) : List (String × TemplateValue) → Bool
  | [] => false
  | (nm, v) :: rest => nm == k || hasKeyVal k v || hasKeyMap k rest

def hasKeyList (k : String) : List TemplateValue → Bool
  | [] => false
  | v :: rest => hasKeyVal k v || hasKeyList k rest

end

theorem scalarsOnly_of_scalar (v : TemplateValue) (h : isScalar v = true) :
    scalarsOnlyVal v = true := by
  cases v <;> simp_all [isScalar, scalarsOnlyVal]

theorem scalarsOnlyMap_append (a b : List (String × TemplateValue)) :
    scalarsOnlyMap (a ++ b) = (scalarsOnlyMap a && scalarsOnlyMap b) := by
  induction a with
  | nil => simp [scalarsOnlyMap]
  | cons p rest ih =>
    obtain ⟨nm, v⟩ := p
    simp [scalarsOnlyMap, ih, Bool.and_assoc]

theorem getDefault_isScalar (t : YangType) :
    isScalar (getDefaultValueForType t) = true := by
  unfold getDefaultValueForType
  split <;> first
  | rfl
  | (split <;> rfl)

theorem generateLeaf_scalars (e : YangEntry) :
    scalarsOnlyVal (generateLeafTemplate e) = true := by
  unfold generateLeafTemplate
  split
  · rfl
  · rename_i t heq
    split
    · simp [scalarsOnlyVal, List.all_cons, getDefault_isScalar]
    · split
      · rfl
      · split
        · rfl
        · exact scalarsOnly_of_scalar _ (getDefault_isScalar t)

theorem generateList_scalars (e : YangEntry)
    (item : List (String × TemplateValue)) (hitem : scalarsOnlyMap item = true) :
    scalarsOnlyVal (generateListTemplate e item) = true := by
  unfold generateListTemplate
  split <;> split <;>
    simp [scalarsOnlyVal, scalarsOnlyMap_append, scalarsOnlyMap,
      List.all_map, isScalar, hitem, Function.comp]

theorem processChilds_scalars (l : List YangEntry)
    (ih : ∀ c ∈ l, scalarsOnlyVal (processEntry c) = true) :
    scalarsOnlyMap (processChilds l) = true := by
  induction l with
  | nil => simp [processChilds, scalarsOnlyMap]
  | cons c cs ihl =>
    simp only [processChilds, scalarsOnlyMap, Bool.and_eq_true]
    exact ⟨ih c (List.mem_cons_self c cs),
      ihl (fun x hx => ih x (List.mem_cons_of_mem c hx))⟩

/-- Every synthesized value keeps mappings out of sequences. -/
theorem processEntry_scalars : ∀ e, scalarsOnlyVal (processEntry e) = true := by
  intro e
  induction e using YangEntry.recMemEntry with
  | h nm kd ds ky la ty nd dir ih =>
    cases kd
    case LeafEntry =>
      simp only [processEntry]
      exact generateLeaf_scalars _
    case DirectoryEntry =>
      simp only [processEntry, scalarsOnlyVal]
      exact processChilds_scalars dir ih
    case ChoiceEntry =>
      cases dir with
      | nil => simp [processEntry, scalarsOnlyVal, scalarsOnlyMap]
      | cons f rest =>
        simp only [processEntry]
        exact ih f (List.mem_cons_self f rest)
    case CaseEntry =>
      simp only [processEntry, scalarsOnlyVal]
      exact processChilds_scalars dir ih
    case InputEntry =>
      simp only [processEntry, scalarsOnlyVal]
      exact processChilds_scalars dir ih
    case OutputEntry =>
      simp only [processEntry, scalarsOnlyVal]
      exact processChilds_scalars dir ih
    case AnyDataEntry =>
      simp [processEntry, scalarsOnlyVal, scalarsOnlyMap]
    case AnyXMLEntry =>
      simp [processEntry, scalarsOnlyVal, scalarsOnlyMap]
    case NotificationEntry =>
      have := processChilds_scalars dir ih
      simp [processEntry, scalarsOnlyVal, scalarsOnlyMap, this]
    case DeviateEntry =>
      simp only [processEntry]
      split
      · exact generateList_scalars _ _ (processChilds_scalars dir ih)
      · simp [scalarsOnlyVal]

theorem generateTemplate_scalars (e : YangEntry) :
    scalarsOnlyMap (generateTemplate e) = true := by
  unfold generateTemplate
  split
  · exact processChilds_scalars _ (fun c _ => processEntry_scalars c)
  · split
    · rename_i m heq
      have := processEntry_scalars e
      rw [heq] at this
      simpa [scalarsOnlyVal] using this
    · rename_i v hne
      have := processEntry_scalars e
      simp only [scalarsOnlyMap, Bool.and_eq_true]
      exact ⟨this, by simp [scalarsOnlyMap]⟩

theorem hasKeyList_scalar (k : String) (l : List TemplateValue)
    (h : l.all isScalar = true) : hasKeyList k l = false := by
  induction l with
  | nil => simp [hasKeyList]
  | cons v rest ih =>
    simp only [List.all_cons, Bool.and_eq_true] at h
    have hv : hasKeyVal k v = false := by
      cases v <;> simp_all [isScalar, hasKeyVal]
    simp [hasKeyList, hv, ih h.2]

theorem hasKeyMap_cons_false {k nm : String} {v : TemplateValue}
    {rest : List (String × TemplateValue)} (h1 : (nm == k) = false)
    (h2 : hasKeyVal k v = false) (h3 : hasKeyMap k rest = false) :
    hasKeyMap k ((nm, v) :: rest) = false := by
  rw [hasKeyMap]
  simp [h1, h2, h3]

/-- Removing k at every mapping level really removes it, provided no
mapping hides inside a sequence. -/
theorem removeKeys_no_key : ∀ (n : Nat) (m : List (String × TemplateValue))
    (keys : List String) (k : String), sizeOf m < n → k ∈ keys →
    scalarsOnlyMap m = true →
    hasKeyMap k (removeKeysFromTemplate m keys) = false := by
  intro n
  induction n with
  | zero => intro m keys k h _ _; exact absurd h (Nat.not_lt_zero _)
  | succ n ih =>
    intro m keys k hsz hk hs
    cases m with
    | nil => simp [removeKeysFromTemplate, hasKeyMap]
    | cons p rest =>
      obtain ⟨nm, v⟩ := p
      have hsplit : scalarsOnlyVal v = true ∧ scalarsOnlyMap rest = true := by
        simp [scalarsOnlyMap] at hs
        exact hs
      have hrest : sizeOf rest < n := by
        have h2 := hsz
        simp only [List.cons.sizeOf_spec, Prod.mk.sizeOf_spec] at h2
        omega
      have hr := ih rest keys k hrest hk hsplit.2
      by_cases he : shouldExclude nm keys = true
      · cases v <;> (simp only [removeKeysFromTemplate, he, if_true]; exact hr)
      · have hef : shouldExclude nm keys = false := by
          cases hse : shouldExclude nm keys with
          | true => exact absurd hse he
          | false => rfl
        have hnmk : (nm == k) = false := by
          cases hbk : nm == k with
          | true =>
            exact absurd
              (show shouldExclude nm keys = true from
                List.any_eq_true.mpr ⟨k, hk, hbk⟩) he
          | false => rfl
        cases v with
        | map m2 =>
          have hm2 : sizeOf m2 < n := by
            have h2 := hsz
            simp only [List.cons.sizeOf_spec, Prod.mk.sizeOf_spec,
              TemplateValue.map.sizeOf_spec] at h2
            omega
          have h1 := ih m2 keys k hm2 hk (by
            simpa [scalarsOnlyVal] using hsplit.1)
          simp only [removeKeysFromTemplate, hef, Bool.false_eq_true, if_false]
          exact hasKeyMap_cons_false hnmk
            (by simp only [hasKeyVal]; exact h1) hr
        | list l =>
          have hl : hasKeyList k l = false :=
            hasKeyList_scalar k l (by simpa [scalarsOnlyVal] using hsplit.1)
          simp only [removeKeysFromTemplate, hef, Bool.false_eq_true, if_false]
          exact hasKeyMap_cons_false hnmk
            (by simp only [hasKeyVal]; exact hl) hr
        | str s =>
          simp only [removeKeysFromTemplate, hef, Bool.false_eq_true, if_false]
          exact hasKeyMap_cons_false hnmk (by simp only [hasKeyVal]) hr
        | intv i =>
          simp only [removeKeysFromTemplate, hef, Bool.false_eq_true, if_false]
          exact hasKeyMap_cons_false hnmk (by simp only [hasKeyVal]) hr
        | boolv b =>
          simp only [removeKeysFromTemplate, hef, Bool.false_eq_true, if_false]
          exact hasKeyMap_cons_false hnmk (by simp only [hasKeyVal]) hr
        | decv =>
          simp only [removeKeysFromTemplate, hef, Bool.false_eq_true, if_false]
          exact hasKeyMap_cons_false hnmk (by simp only [hasKeyVal]) hr

/-! ## Well-formed model paths (specification device for C8)

A model path "/seg1/seg2[k1=<key>,k2=<key>]/..." is rendered from
segments whose names and key names use ordinary identifier characters.
The lemmas below trace the extraction scanner over such a rendering. -/

def plainChar (c : Char) : Bool :=
  !(c == '/' || c == '=' || c == '[' || c == ']' || c == ',' ||
    c == '<' || c == '>')

structure PathSeg where
  name : String
  keys : List String

def keyChunk (k : String) : List Char :=
  k.data ++ ('=' :: '<' :: 'k' :: 'e' :: 'y' :: '>' :: [])

def keysChars (keys : List String) : List Char :=
  joinWith [','] (keys.map keyChunk)

def renderSeg (s : PathSeg) : List Char :=
  s.name.data ++
    (if s.keys.isEmpty then [] else '[' :: (keysChars s.keys ++ [']']))

def renderPathChars (segs : List PathSeg) : List Char :=
  segs.flatMap (fun s => '/' :: renderSeg s)

def renderPath (segs : List PathSeg) : String :=
  String.mk (renderPathChars segs)

def validName (s : String) : Prop :=
  s.data ≠ [] ∧ s.data.all plainChar = true

def validSeg (s : PathSeg) : Prop :=
  validName s.name ∧ ∀ k ∈ s.keys, validName k

theorem plain_nonStop {c : Char} (h : plainChar c = true) :
    nonStopChar c = true := by
  simp only [plainChar, Bool.not_eq_true', Bool.or_eq_false_iff, beq_eq_false_iff_ne,
    ne_eq] at h
  simp only [nonStopChar, Bool.not_eq_true', Bool.or_eq_false_iff, beq_eq_false_iff_ne,
    ne_eq]
  exact ⟨⟨h.1.1.1.1.1.2, h.1.1.1.1.2⟩, h.1.1.2⟩

theorem all_nonStop_of_plain {l : List Char} (h : l.all plainChar = true) :
    l.all nonStopChar = true := by
  rw [List.all_eq_true] at h ⊢
  exact fun x hx => plain_nonStop (h x hx)

theorem all_drop {α : Type} (p : α → Bool) (l : List α) (n : Nat)
    (h : l.all p = true) : (l.drop n).all p = true := by
  induction l generalizing n with
  | nil => simp
  | cons a l ih =>
    cases n with
    | zero => exact h
    | succ n =>
      simp only [List.all_cons, Bool.and_eq_true] at h
      simpa using ih n h.2

theorem takeWhile_append_all {α : Type} (p : α → Bool) (S cs : List α)
    (h : S.all p = true) :
    (S ++ cs).takeWhile p = S ++ cs.takeWhile p := by
  induction S with
  | nil => simp
  | cons a S ih =>
    simp only [List.all_cons, Bool.and_eq_true] at h
    simp [List.takeWhile_cons, h.1, ih h.2]

theorem drop_append_len {α : Type} (S cs : List α) (n : Nat) :
    (S ++ cs).drop (S.length + n) = cs.drop n := by
  induction S with
  | nil => simp
  | cons a S ih => simpa [List.length_cons, Nat.succ_add] using ih

/-- A scan attempt fails whenever it starts inside a stop-free region
whose first stop character (if any) is not an equals sign. -/
theorem tryKeyMatch_none (S cs : List Char) (hS : S.all nonStopChar = true)
    (hb : (cs.drop (cs.takeWhile nonStopChar).length).head? ≠ some '=') :
    tryKeyMatch (S ++ cs) = none := by
  simp only [tryKeyMatch]
  rw [takeWhile_append_all nonStopChar S cs hS]
  split
  · rfl
  · rw [List.length_append, drop_append_len]
    cases hd : cs.drop (cs.takeWhile nonStopChar).length with
    | nil => rfl
    | cons c rest =>
      rw [hd] at hb
      simp only [List.head?_cons] at hb
      have hc : c ≠ '=' := fun h => hb (by rw [h])
      split
      · rename_i r heq
        injection heq with h1 h2
        exact absurd h1 hc
      · rfl

theorem keyScan_cons_none {c : Char} {cs : List Char}
    (h : tryKeyMatch (c :: cs) = none) : keyScan (c :: cs) = keyScan cs := by
  simp only [keyScan]
  split
  · rename_i k rest heq
    rw [h] at heq
    cases heq
  · rfl

theorem keyScan_cons_some {c : Char} {cs rest : List Char} {k : String}
    (h : tryKeyMatch (c :: cs) = some (k, rest)) :
    keyScan (c :: cs) = k :: keyScan rest := by
  simp only [keyScan]
  split
  · rename_i k2 rest2 heq
    rw [h] at heq
    injection heq with he
    injection he with h1 h2
    rw [h1, h2]
  · rename_i heq
    rw [h] at heq
    cases heq

/-- Scanning skips a region at every position of which no match starts. -/
theorem keyScan_append (A rest : List Char)
    (h : ∀ i, i < A.length → tryKeyMatch (A.drop i ++ rest) = none) :
    keyScan (A ++ rest) = keyScan rest := by
  induction A with
  | nil => rfl
  | cons a A ih =>
    rw [List.cons_append]
    rw [keyScan_cons_none (by simpa using h 0 (by simp))]
    exact ih (fun i hi => by simpa using h (i + 1) (by simpa using hi))

/-- In a well-formed rendering, the first stop character is never an
equals sign (it is an opening bracket, or there is none). -/
theorem boundary_of_render : ∀ (segs : List PathSeg),
    (∀ s ∈ segs, validSeg s) →
    ((renderPathChars segs).drop
      ((renderPathChars segs).takeWhile nonStopChar).length).head? ≠
        some '=' := by
  intro segs
  induction segs with
  | nil => intro _; simp [renderPathChars]
  | cons s rest ih =>
    intro hv
    have hvs := hv s (List.mem_cons_self s rest)
    have hvr := fun x hx => hv x (List.mem_cons_of_mem s hx)
    have hplain : ('/' :: s.name.data).all nonStopChar = true := by
      simp only [List.all_cons, Bool.and_eq_true]
      exact ⟨rfl, all_nonStop_of_plain hvs.1.2⟩
    by_cases hkeys : s.keys.isEmpty
    · have hr : renderPathChars (s :: rest) =
          ('/' :: s.name.data) ++ renderPathChars rest := by
        simp [renderPathChars, renderSeg, List.isEmpty_iff.mp hkeys]
      rw [hr, takeWhile_append_all nonStopChar _ _ hplain,
        List.length_append, drop_append_len]
      exact ih hvr
    · have hne : s.keys ≠ [] := by
        simpa [List.isEmpty_iff] using hkeys
      have hr : renderPathChars (s :: rest) =
          ('/' :: s.name.data) ++
            ('[' :: (keysChars s.keys ++ ']' :: renderPathChars rest)) := by
        simp [renderPathChars, renderSeg, hne, List.append_assoc]
      rw [hr, takeWhile_append_all nonStopChar _ _ hplain]
      have ht : List.takeWhile nonStopChar
          ('[' :: (keysChars s.keys ++ ']' :: renderPathChars rest)) = [] := by
        simp [List.takeWhile_cons, nonStopChar]
      rw [ht, List.append_nil]
      have hD := drop_append_len ('/' :: s.name.data)
        ('[' :: (keysChars s.keys ++ ']' :: renderPathChars rest)) 0
      simp only [Nat.add_zero, List.drop_zero] at hD
      rw [hD]
      simp

/-- The scanner matches a rendered key expression at its start,
capturing exactly the key name. -/
theorem tryKeyMatch_keyChunk (k : String) (hk : validName k)
    (tail : List Char) :
    tryKeyMatch (keyChunk k ++ tail) = some (k, tail) := by
  have hrw : keyChunk k ++ tail =
      k.data ++ ('=' :: '<' :: 'k' :: 'e' :: 'y' :: '>' :: tail) := by
    simp [keyChunk]
  rw [hrw]
  simp only [tryKeyMatch]
  rw [takeWhile_append_all nonStopChar _ _ (all_nonStop_of_plain hk.2)]
  have ht : List.takeWhile nonStopChar
      ('=' :: '<' :: 'k' :: 'e' :: 'y' :: '>' :: tail) = [] := by
    simp [List.takeWhile_cons, nonStopChar]
  rw [ht, List.append_nil]
  rw [if_neg (by simpa [List.isEmpty_iff] using hk.1)]
  have hD := drop_append_len k.data
    ('=' :: '<' :: 'k' :: 'e' :: 'y' :: '>' :: tail) 0
  simp only [Nat.add_zero, List.drop_zero] at hD
  rw [hD]
  simp [List.takeWhile_cons, List.drop]

/-- Scanning the inside of a bracket group yields exactly its keys, then
continues after the group. -/
theorem keyScan_keys : ∀ (keys : List String), keys ≠ [] →
    (∀ k ∈ keys, validName k) → ∀ tail : List Char,
    keyScan (keysChars keys ++ tail) = keys ++ keyScan tail := by
  intro keys
  induction keys with
  | nil => intro h; exact absurd rfl h
  | cons k ks ih =>
    intro _ hv tail
    have hkval := hv k (List.mem_cons_self k ks)
    cases ks with
    | nil =>
      have h1 : keysChars [k] = keyChunk k := by simp [keysChars, joinWith]
      rw [h1]
      have hm := tryKeyMatch_keyChunk k hkval tail
      obtain ⟨c, cs, hcons⟩ : ∃ c cs, keyChunk k ++ tail = c :: cs := by
        cases hd : k.data with
        | nil => exact absurd hd hkval.1
        | cons a as =>
          exact ⟨a, as ++ ('=' :: '<' :: 'k' :: 'e' :: 'y' :: '>' :: []) ++ tail,
            by simp [keyChunk, hd]⟩
      rw [hcons] at hm ⊢
      rw [keyScan_cons_some hm]
      rfl
    | cons k2 ks2 =>
      have h1 : keysChars (k :: k2 :: ks2) ++ tail =
          keyChunk k ++ ((',' :: keysChars (k2 :: ks2)) ++ tail) := by
        simp [keysChars, joinWith, List.append_assoc]
      rw [h1]
      have hm := tryKeyMatch_keyChunk k hkval ((',' :: keysChars (k2 :: ks2)) ++ tail)
      obtain ⟨c, cs, hcons⟩ : ∃ c cs,
          keyChunk k ++ ((',' :: keysChars (k2 :: ks2)) ++ tail) = c :: cs := by
        cases hd : k.data with
        | nil => exact absurd hd hkval.1
        | cons a as =>
          exact ⟨a, as ++ ('=' :: '<' :: 'k' :: 'e' :: 'y' :: '>' :: []) ++
            ((',' :: keysChars (k2 :: ks2)) ++ tail), by simp [keyChunk, hd]⟩
      rw [hcons] at hm ⊢
      rw [keyScan_cons_some hm]
      have hnone : tryKeyMatch (',' :: (keysChars (k2 :: ks2) ++ tail)) = none := by
        simp [tryKeyMatch, List.takeWhile_cons, nonStopChar]
      rw [List.cons_append, keyScan_cons_none hnone]
      rw [ih (by simp) (fun x hx => hv x (List.mem_cons_of_mem k hx)) tail]
      rfl

/-- The extraction scanner collects exactly the key names of a
well-formed rendered model path. -/
theorem keyScan_render : ∀ (segs : List PathSeg), (∀ s ∈ segs, validSeg s) →
    keyScan (renderPathChars segs) = segs.flatMap (fun s => s.keys) := by
  intro segs
  induction segs with
  | nil => intro _; simp [renderPathChars, keyScan]
  | cons s rest ih =>
    intro hv
    have hvs := hv s (List.mem_cons_self s rest)
    have hvr := fun x hx => hv x (List.mem_cons_of_mem s hx)
    have hplain : ('/' :: s.name.data).all nonStopChar = true := by
      simp only [List.all_cons, Bool.and_eq_true]
      exact ⟨rfl, all_nonStop_of_plain hvs.1.2⟩
    by_cases hkeys : s.keys = []
    · have hr : renderPathChars (s :: rest) =
          ('/' :: s.name.data) ++ renderPathChars rest := by
        simp [renderPathChars, renderSeg, hkeys]
      rw [hr, keyScan_append _ _ (fun i hi =>
        tryKeyMatch_none (('/' :: s.name.data).drop i) _
          (all_drop _ _ _ hplain) (boundary_of_render rest hvr)),
        ih hvr]
      simp [hkeys]
    · have hr : renderPathChars (s :: rest) =
          (('/' :: s.name.data) ++ ['[']) ++
            (keysChars s.keys ++ (']' :: renderPathChars rest)) := by
        simp [renderPathChars, renderSeg, hkeys, List.append_assoc]
      rw [hr]
      rw [keyScan_append (('/' :: s.name.data) ++ ['[']) _ ?hskip]
      case hskip =>
        intro i hi
        rw [List.drop_append_eq_append_drop]
        by_cases hile : i ≤ ('/' :: s.name.data).length
        · have hz : i - ('/' :: s.name.data).length = 0 := by omega
          rw [hz]
          rw [List.append_assoc]
          refine tryKeyMatch_none (('/' :: s.name.data).drop i) _
            (all_drop _ _ _ hplain) ?_
          have ht : List.takeWhile nonStopChar
              ('[' :: (keysChars s.keys ++ (']' :: renderPathChars rest))
                ++ (keysChars s.keys ++ (']' :: renderPathChars rest))) = [] := by
            simp [List.takeWhile_cons, nonStopChar]
          simp [List.takeWhile_cons, nonStopChar]
        · exfalso
          simp only [List.length_append, List.length_cons,
            List.length_nil] at hi hile
          omega
      rw [keyScan_keys s.keys hkeys hvs.2]
      have hnone : tryKeyMatch (']' :: renderPathChars rest) = none := by
        refine tryKeyMatch_none [']'] (renderPathChars rest) (by decide)
          (boundary_of_render rest hvr)
      rw [keyScan_cons_none hnone, ih hvr]
      simp

theorem isPrefixOf_append_self (l t : List Char) :
    l.isPrefixOf (l ++ t) = true := by
  induction l with
  | nil => simp [List.isPrefixOf]
  | cons a l ih => simpa [List.isPrefixOf] using ih

theorem containsSub_of_parts (pre sub post : List Char) :
    containsSub (pre ++ sub ++ post) sub = true := by
  induction pre with
  | nil =>
    cases sub with
    | nil => cases post <;> simp [containsSub, List.isPrefixOf]
    | cons a as =>
      rw [List.nil_append, List.cons_append]
      simp only [containsSub]
      simp [List.isPrefixOf, isPrefixOf_append_self]
  | cons p ps ih =>
    rw [List.cons_append]
    have ih2 : containsSub (ps ++ (sub ++ post)) sub = true := by
      rw [← List.append_assoc]
      exact ih
    simp only [containsSub]
    simp [ih2]

theorem keysChars_split {k : String} {keys : List String} (hk : k ∈ keys) :
    ∃ p1 p2, keysChars keys = p1 ++ keyChunk k ++ p2 := by
  induction keys with
  | nil => cases hk
  | cons kh ks ih =>
    rcases List.mem_cons.mp hk with rfl | hmem
    · cases ks with
      | nil => exact ⟨[], [], by simp [keysChars, joinWith]⟩
      | cons k2 ks2 =>
        exact ⟨[], ',' :: keysChars (k2 :: ks2), by
          simp [keysChars, joinWith, List.append_assoc]⟩
    · obtain ⟨p1, p2, hsplit⟩ := ih hmem
      cases ks with
      | nil => cases hmem
      | cons k2 ks2 =>
        refine ⟨keyChunk kh ++ ',' :: p1, p2, ?_⟩
        have : keysChars (kh :: k2 :: ks2) =
            keyChunk kh ++ ',' :: keysChars (k2 :: ks2) := by
          simp [keysChars, joinWith]
        rw [this, hsplit]
        simp [List.append_assoc]

/-- A rendered path literally contains "k=<key>" for each of its keys. -/
theorem render_contains_key (segs : List PathSeg) (s : PathSeg) (k : String)
    (hs : s ∈ segs) (hk : k ∈ s.keys) :
    containsSub (renderPathChars segs) (keyChunk k) = true := by
  obtain ⟨l1, l2, rfl⟩ := List.append_of_mem hs
  obtain ⟨p1, p2, hsplit⟩ := keysChars_split hk
  have hne : s.keys ≠ [] := List.ne_nil_of_mem hk
  have hr : renderPathChars (l1 ++ s :: l2) =
      (renderPathChars l1 ++ '/' :: (s.name.data ++ '[' :: p1)) ++
        keyChunk k ++ (p2 ++ ']' :: renderPathChars l2) := by
    simp [renderPathChars, List.flatMap_append, List.flatMap_cons,
      renderSeg, hne, hsplit, List.append_assoc]
  rw [hr]
  exact containsSub_of_parts _ _ _

/-- C8: generating in the resource-wrapper format for a well-formed
model path with a bracketed key placeholder [k=<key>] strips k from the
value tree at every nesting level, while the wrapper's single
configuration entry pairs that stripped value with the original path
string, which still contains the literal k=<key>. -/
theorem claim_c8 (root entry : YangEntry) (segs : List PathSeg)
    (s : PathSeg) (k : String) (o : GenOptions) :
    o.outputFormat = "sdc-conf" →
    o.modelPath = renderPath segs →
    (∀ x ∈ segs, validSeg x) →
    s ∈ segs → k ∈ s.keys →
    findEntryByPath root (stripKeysFromPath o.modelPath) = some entry →
    ∃ tpl, generateTemplateFromYang o root = some tpl ∧
      (generateSDCConfig o tpl).spec.config =
        [{ path := o.modelPath, value := tpl }] ∧
      hasKeyMap k tpl = false ∧
      containsSub o.modelPath.data (keyChunk k) = true := by
  intro hfmt hpath hval hs hk hfind
  have hkeys : extractKeysFromPath o.modelPath =
      segs.flatMap (fun x => x.keys) := by
    rw [hpath]
    exact keyScan_render segs hval
  have hkmem : k ∈ extractKeysFromPath o.modelPath := by
    rw [hkeys]
    exact List.mem_flatMap.mpr ⟨s, hs, hk⟩
  have hlen : 0 < (extractKeysFromPath o.modelPath).length :=
    List.length_pos.mpr (List.ne_nil_of_mem hkmem)
  refine ⟨removeKeysFromTemplate (generateTemplate entry)
    (extractKeysFromPath o.modelPath), ?_, ?_, ?_, ?_⟩
  · simp only [generateTemplateFromYang, hfind]
    rw [if_pos ⟨hlen, Or.inl hfmt⟩]
  · rfl
  · exact removeKeys_no_key (sizeOf (generateTemplate entry) + 1) _ _ k
      (Nat.lt_succ_self _) hkmem (generateTemplate_scalars entry)
  · rw [hpath]
    exact render_contains_key segs s k hs hk

def wGenLeafK : YangEntry := ⟨"k", .LeafEntry, "", "", none, none, none, []⟩

def wGenLeafC : YangEntry := ⟨"c", .LeafEntry, "", "", none, none, none, []⟩

def wGenB : YangEntry :=
  ⟨"b", .DirectoryEntry, "", "k", some ⟨0, 0⟩, none, none,
    [wGenLeafK, wGenLeafC]⟩

def wGenA : YangEntry := ⟨"a", .DirectoryEntry, "", "", none, none, none, [wGenB]⟩

def wGenRoot : YangEntry :=
  ⟨"mod", .DirectoryEntry, "", "", none, none, none, [wGenA]⟩

def wGenSegs : List PathSeg := [⟨"a", []⟩, ⟨"b", ["k"]⟩]

def wGenO : GenOptions := ⟨"/a/b[k=<key>]", "sdc-conf"⟩

theorem claim_c8_witness :
    ∃ tpl, generateTemplateFromYang wGenO wGenRoot = some tpl ∧
      (generateSDCConfig wGenO tpl).spec.config =
        [{ path := wGenO.modelPath, value := tpl }] ∧
      hasKeyMap "k" tpl = false ∧
      containsSub wGenO.modelPath.data (keyChunk "k") = true :=
  claim_c8 wGenRoot wGenB wGenSegs ⟨"b", ["k"]⟩ "k" wGenO rfl (by decide)
    (by
      intro x hx
      cases hx with
      | head => exact ⟨⟨by decide, by decide⟩, by intro k hk; cases hk⟩
      | tail _ hx2 =>
        cases hx2 with
        | head =>
          refine ⟨⟨by decide, by decide⟩, ?_⟩
          intro k hk
          cases hk with
          | head => exact ⟨by decide, by decide⟩
          | tail _ h2 => cases h2
        | tail _ h2 => cases h2)
    (List.Mem.tail _ (List.Mem.head _)) (List.Mem.head _) rfl
end Sdcio



